import Mathlib

/-!
Verification of the Tomato Wordle solver (`solver.py`).

Shallow embedding conventions:
* Python strings are `List Char`; the feedback marks are the source's
  characters `'g'` (Correct), `'y'` (Present), `'b'` (Absent).
* `feedback` mirrors the two-pass algorithm at `solver.py:57-73`.  Python
  raises `IndexError` on `target[i]` when the guess is longer than the
  target; this partiality is modelled by an `Option` result (`none` is
  the exception).
* Entropy is real-valued (`ℝ`) since the source uses `math.log2`; the
  pattern-count dictionary is modelled exactly (insertion-ordered
  association list, as a Python `dict` is).
-/

namespace Wordle

/-- Constant `MIN_LEN` (`solver.py:43`). -/
def MIN_LEN : Nat := 3

/-- Constant `MAX_LEN` (`solver.py:44`). -/
def MAX_LEN : Nat := 15

/-- First pass of `feedback` (`solver.py:59-64`): walk the guess and the
target together; produce the per-position initial mark
(`'g'` on a positional match, else `'b'`) paired with the guess letter,
and the target's `used` flags paired with the target letters.
Target positions beyond the guess stay unused. -/
def pass1 : List Char → List Char → List (Char × Char) × List (Char × Bool)
  | [], target => ([], target.map (fun t => (t, false)))
  | _ :: _, [] => ([], [])
  | g :: gs, t :: ts =>
    let r := pass1 gs ts
    ((g, if g = t then 'g' else 'b') :: r.1, (t, decide (g = t)) :: r.2)

/-- Inner scan of the second pass (`solver.py:68-72`): find the first
unused target position holding the letter `c`; consume it if found. -/
def markPresent (c : Char) : List (Char × Bool) → Option (List (Char × Bool))
  | [] => none
  | (t, u) :: rest =>
    if u = false ∧ c = t then some ((t, true) :: rest)
    else (markPresent c rest).map (fun l => (t, u) :: l)

/-- Second pass of `feedback` (`solver.py:65-72`): in guess order, keep
`'g'` marks; otherwise upgrade to `'y'` when an unused matching target
letter is available, consuming it. -/
def pass2 : List (Char × Char) → List (Char × Bool) → List Char
  | [], _ => []
  | (g, f) :: rest, tu =>
    if f = 'g' then 'g' :: pass2 rest tu
    else
      match markPresent g tu with
      | some tu' => 'y' :: pass2 rest tu'
      | none => f :: pass2 rest tu

/-- The function `feedback` (`solver.py:57-73`).  A `none` result models
the `IndexError` Python raises at `target[i]` when the guess is longer
than the target. -/
def feedback (guess target : List Char) : Option (List Char) :=
  if guess.length ≤ target.length then
    some (pass2 (pass1 guess target).1 (pass1 guess target).2)
  else none

/-- The function `filter_candidates` (`solver.py:75-77`). -/
def filter_candidates (candidates : List (List Char)) (guess : List Char)
    (fb : List Char) : List (List Char) :=
  candidates.filter (fun word => decide (feedback guess word = some fb))

/-- One step of building the `pattern_counts` dict
(`solver.py:85`, `pattern_counts[f] = pattern_counts.get(f, 0) + 1`):
a Python dict is insertion-ordered, updates in place. Keys are the
`Option`-valued feedback patterns. -/
def bump (k : Option (List Char)) :
    List (Option (List Char) × Nat) → List (Option (List Char) × Nat)
  | [] => [(k, 1)]
  | (k', n) :: rest =>
    if k' = k then (k', n + 1) :: rest else (k', n) :: bump k rest

/-- The `pattern_counts` dict of `calculate_entropy` (`solver.py:82-85`). -/
def pattern_counts (guess : List Char) (candidates : List (List Char)) :
    List (Option (List Char) × Nat) :=
  candidates.foldl (fun m target => bump (feedback guess target) m) []

/-- The function `calculate_entropy` (`solver.py:79-90`): the source accumulates
`entropy -= p * log2 p` over the dict values; we sum the corresponding
real terms.  Real-valued since the source computes with `math.log2`. -/
noncomputable def calculate_entropy (guess : List Char)
    (candidates : List (List Char)) : ℝ :=
  let total : ℝ := (candidates.length : ℝ)
  ((pattern_counts guess candidates).map
    (fun kc => -(((kc.2 : ℝ) / total) * Real.logb 2 ((kc.2 : ℝ) / total)))).sum

/-- The function `rank_guesses` (`solver.py:92-101`): pair every pool word with its
entropy (in pool order), stable-sort descending by entropy (Python's
`sort(key=lambda x: -x[1])` is a stable ascending sort on the negated
score), take the first `topn`.  The `tqdm` progress bar is display-only
and iterates `full_vocab` in order. -/
noncomputable def rank_guesses (candidates full_vocab : List (List Char))
    (topn : Nat := 100) : List (List Char × ℝ) :=
  let entropies := full_vocab.map (fun word => (word, calculate_entropy word candidates))
  (entropies.mergeSort (fun a b => decide (b.2 ≤ a.2))).take topn

/-- Outcome of a `play_wordle` run (`solver.py:109-139`).
`Solved n` models `return turns`; `Exhausted` the `return -1` at
`solver.py:137` ("No candidates left"); `InvalidTarget` the `return -1`
at `solver.py:120`; `InvalidLength` the `ValueError` at `solver.py:112`;
`EmptyVocabulary` the early exit of `interactive_manual_mode`
(`solver.py:144-146`, never produced by `play_wordle`); `Crash` a Python
`IndexError`; `OutOfFuel` is the fuel-exhaustion artifact of embedding
the unbounded `while True` loop. -/
inductive Outcome where
  | Solved : Nat → Outcome
  | Exhausted : Outcome
  | InvalidTarget : Outcome
  | InvalidLength : Outcome
  | EmptyVocabulary : Outcome
  | Crash : Outcome
  | OutOfFuel : Outcome
  deriving DecidableEq

/-- The `while True` loop of `play_wordle` (`solver.py:125-139`), with
`turns` threaded explicitly and structural recursion on `fuel`. -/
noncomputable def play_loop (length : Nat) (target : List Char) :
    List (List Char) → Nat → Nat → Outcome
  | _, _, 0 => .OutOfFuel
  | candidates, turns, fuel + 1 =>
    match rank_guesses candidates candidates 1 with
    | [] => .Crash
    | (guess, _) :: _ =>
      match feedback guess target with
      | none => .Crash
      | some fb =>
        if fb = List.replicate length 'g' then .Solved (turns + 1)
        else
          let candidates' := filter_candidates candidates guess fb
          if candidates' = [] then .Exhausted
          else play_loop length target candidates' (turns + 1) fuel

/-- The function `play_wordle` (`solver.py:109-139`).  `full_vocab` stands for
`VOCABULARY_BY_LENGTH[length]` (the external vocabulary provider);
`choice` stands for `random.choice`; `target?` is the optional `--target`
argument, with Python's truthiness test `if target:` (both `None` and
`""` are falsy) rendered via `getD []`. -/
noncomputable def play_wordle (choice : List (List Char) → List Char)
    (full_vocab : List (List Char)) (length : Nat)
    (target? : Option (List Char)) (fuel : Nat) : Outcome :=
  if length < MIN_LEN ∨ MAX_LEN < length then .InvalidLength
  else
    let candidates := full_vocab
    let t0 := target?.getD []
    if t0 ≠ [] ∧ (t0.length ≠ length ∨ t0 ∉ full_vocab) then .InvalidTarget
    else
      let target := if t0 ≠ [] then t0 else choice candidates
      play_loop length target candidates 0 fuel

/-- Initialization of `interactive_manual_mode` (`solver.py:141-150`):
`VOCABULARY_BY_LENGTH.get(length)` is `vocab_by_length length`; the test
`if not full_vocab:` exits (modelled as `none`, the "No vocabulary
available" failure) when the entry is missing or the list is empty;
otherwise the candidate set is established as a copy of the vocabulary.
No word-length range check is performed in this mode. -/
def interactive_init (vocab_by_length : Nat → Option (List (List Char)))
    (length : Nat) : Option (List (List Char)) :=
  match vocab_by_length length with
  | none => none
  | some v => if v = [] then none else some v

/-- Number of positions whose mark is Correct (`'g'`) or Present (`'y'`)
and whose guess letter is `L` — the quantity bounded by the spec's
duplicate-handling contract. -/
def markCount (L : Char) (guess fb : List Char) : Nat :=
  (guess.zip fb).countP (fun p => decide (p.1 = L ∧ (p.2 = 'g' ∨ p.2 = 'y')))

/-- Number of first-pass Correct marks attributed to letter `L`. -/
def gCount (L : Char) (gf : List (Char × Char)) : Nat :=
  gf.countP (fun p => decide (p.1 = L ∧ p.2 = 'g'))

/-- Number of still-unused target positions holding letter `L`. -/
def freeCount (L : Char) (tu : List (Char × Bool)) : Nat :=
  tu.countP (fun p => decide (p.1 = L ∧ p.2 = false))

/-! ### Basic structure of the two feedback passes -/

lemma pass2_length (gf : List (Char × Char)) : ∀ tu, (pass2 gf tu).length = gf.length := by
  induction gf with
  | nil => intro tu; rfl
  | cons p rest ih =>
    intro tu
    obtain ⟨g, f⟩ := p
    by_cases hf : f = 'g'
    · simp [pass2, hf, ih]
    · cases hmp : markPresent g tu with
      | none => simp [pass2, hf, hmp, ih]
      | some tu' => simp [pass2, hf, hmp, ih]

lemma pass1_fst_map : ∀ (g t : List Char), g.length ≤ t.length →
    (pass1 g t).1.map Prod.fst = g
  | [], _, _ => rfl
  | _ :: _, [], h => by simp at h
  | x :: xs, y :: ys, h => by
    simp only [pass1, List.map_cons]
    exact congrArg _ (pass1_fst_map xs ys (by simpa using h))

lemma pass1_fst_length (g t : List Char) (h : g.length ≤ t.length) :
    (pass1 g t).1.length = g.length := by
  have := congrArg List.length (pass1_fst_map g t h)
  simpa using this

lemma feedback_eq_some (g t : List Char) (h : g.length ≤ t.length) :
    feedback g t = some (pass2 (pass1 g t).1 (pass1 g t).2) := by
  simp [feedback, h]

lemma feedback_isSome (g t : List Char) (h : g.length ≤ t.length) :
    ∃ fb, feedback g t = some fb ∧ fb.length = g.length := by
  refine ⟨pass2 (pass1 g t).1 (pass1 g t).2, feedback_eq_some g t h, ?_⟩
  rw [pass2_length, pass1_fst_length g t h]

lemma pass2_eq_replicate_iff (gf : List (Char × Char)) : ∀ tu,
    pass2 gf tu = List.replicate gf.length 'g' ↔ ∀ p ∈ gf, p.2 = 'g' := by
  induction gf with
  | nil => intro tu; simp [pass2]
  | cons p rest ih =>
    intro tu
    obtain ⟨g, f⟩ := p
    by_cases hf : f = 'g'
    · simp [pass2, hf, List.replicate_succ, ih]
    · cases hmp : markPresent g tu with
      | none =>
        simp only [pass2, hf, if_neg hf, hmp, List.length_cons, List.replicate_succ]
        constructor
        · intro h; exact absurd (List.head_eq_of_cons_eq h).symm (Ne.symm hf)
        · intro h; exact absurd (h (g, f) (List.mem_cons_self _ _)) hf
      | some tu' =>
        simp only [pass2, hf, if_neg hf, hmp, List.length_cons, List.replicate_succ]
        constructor
        · intro h
          have := (List.head_eq_of_cons_eq h).symm
          simp at this
        · intro h; exact absurd (h (g, f) (List.mem_cons_self _ _)) hf

lemma pass1_all_g_iff : ∀ (g t : List Char), g.length = t.length →
    ((∀ p ∈ (pass1 g t).1, p.2 = 'g') ↔ g = t)
  | [], [], _ => by simp [pass1]
  | [], _ :: _, h => by simp at h
  | _ :: _, [], h => by simp at h
  | x :: xs, y :: ys, h => by
    have ih := pass1_all_g_iff xs ys (by simpa using h)
    have hstruct : (pass1 (x :: xs) (y :: ys)).1
        = (x, if x = y then 'g' else 'b') :: (pass1 xs ys).1 := rfl
    rw [hstruct]
    constructor
    · intro hall
      have hhead : (if x = y then 'g' else 'b') = 'g' :=
        hall (x, if x = y then 'g' else 'b') (List.mem_cons_self _ _)
      by_cases hxy : x = y
      · have hx : xs = ys := ih.mp (fun p hp => hall p (List.mem_cons_of_mem _ hp))
        rw [hxy, hx]
      · rw [if_neg hxy] at hhead
        exact absurd hhead (by decide)
    · intro he
      injection he with h1 h2
      intro p hp
      rcases List.mem_cons.mp hp with h1' | h2'
      · rw [h1']
        show (if x = y then 'g' else 'b') = 'g'
        simp [h1]
      · exact ih.mpr h2 p h2'

/-- The Solved test of the loop (`solver.py:131`) compares against the
all-`'g'` string; this characterizes it. -/
lemma feedback_all_g_iff (g t : List Char) (h : g.length = t.length) :
    feedback g t = some (List.replicate g.length 'g') ↔ g = t := by
  have hle : g.length ≤ t.length := le_of_eq h
  rw [feedback_eq_some g t hle, Option.some_inj, ← pass1_fst_length g t hle,
    pass2_eq_replicate_iff, pass1_all_g_iff g t h]

lemma feedback_self (g : List Char) :
    feedback g g = some (List.replicate g.length 'g') :=
  (feedback_all_g_iff g g rfl).mpr rfl

/-! ### Duplicate-letter accounting: every Correct/Present mark consumes
a distinct target occurrence -/

lemma pass1_marks : ∀ (g t : List Char), ∀ p ∈ (pass1 g t).1, p.2 = 'g' ∨ p.2 = 'b'
  | [], _ => by simp [pass1]
  | _ :: _, [] => by simp [pass1]
  | x :: xs, y :: ys => by
    intro p hp
    have hstruct : (pass1 (x :: xs) (y :: ys)).1
        = (x, if x = y then 'g' else 'b') :: (pass1 xs ys).1 := rfl
    rw [hstruct] at hp
    rcases List.mem_cons.mp hp with h1 | h2
    · rw [h1]; by_cases hxy : x = y <;> simp [hxy]
    · exact pass1_marks xs ys p h2

lemma gCount_cons (L g f : Char) (rest : List (Char × Char)) :
    gCount L ((g, f) :: rest)
      = gCount L rest + (if g = L ∧ f = 'g' then 1 else 0) := by
  unfold gCount
  rw [List.countP_cons]
  by_cases h : g = L ∧ f = 'g' <;> simp [h]

lemma freeCount_cons (L t : Char) (u : Bool) (rest : List (Char × Bool)) :
    freeCount L ((t, u) :: rest)
      = freeCount L rest + (if t = L ∧ u = false then 1 else 0) := by
  unfold freeCount
  rw [List.countP_cons]
  by_cases h : t = L ∧ u = false <;> simp [h]

lemma markP_cons (L g m : Char) (Z : List (Char × Char)) :
    ((g, m) :: Z).countP (fun p => decide (p.1 = L ∧ (p.2 = 'g' ∨ p.2 = 'y')))
      = Z.countP (fun p => decide (p.1 = L ∧ (p.2 = 'g' ∨ p.2 = 'y')))
        + (if g = L ∧ (m = 'g' ∨ m = 'y') then 1 else 0) := by
  rw [List.countP_cons]
  by_cases h : g = L ∧ (m = 'g' ∨ m = 'y') <;> simp [h]

lemma markPresent_freeCount (c : Char) :
    ∀ (tu tu' : List (Char × Bool)), markPresent c tu = some tu' → ∀ L : Char,
    freeCount L tu = freeCount L tu' + (if L = c then 1 else 0)
  | [], tu', h => by simp [markPresent] at h
  | (t, u) :: rest, tu', h => by
    intro L
    by_cases hc : u = false ∧ c = t
    · rw [markPresent, if_pos hc, Option.some_inj] at h
      subst h
      obtain ⟨hu, hct⟩ := hc
      subst hu
      subst hct
      rw [freeCount_cons, freeCount_cons]
      have e2 : (if c = L ∧ (true : Bool) = false then 1 else 0) = 0 := by simp
      rw [e2]
      by_cases hL : c = L
      · have e1 : (if c = L ∧ (false : Bool) = false then 1 else 0) = 1 := by simp [hL]
        have e3 : (if L = c then 1 else 0) = 1 := by simp [hL.symm]
        rw [e1, e3]
      · have e1 : (if c = L ∧ (false : Bool) = false then 1 else 0) = 0 := by simp [hL]
        have e3 : (if L = c then 1 else 0) = 0 := by
          have hL' : ¬ L = c := fun h => hL h.symm
          simp [hL']
        rw [e1, e3]
    · rw [markPresent, if_neg hc] at h
      cases hmp : markPresent c rest with
      | none => rw [hmp] at h; simp at h
      | some l' =>
        rw [hmp] at h
        simp only [Option.map_some', Option.some_inj] at h
        subst h
        have ih := markPresent_freeCount c rest l' hmp L
        rw [freeCount_cons, freeCount_cons, ih]
        omega

lemma pass2_markCount (L : Char) :
    ∀ (gf : List (Char × Char)) (tu : List (Char × Bool)),
    (∀ p ∈ gf, p.2 = 'g' ∨ p.2 = 'b') →
    ((gf.map Prod.fst).zip (pass2 gf tu)).countP
        (fun p => decide (p.1 = L ∧ (p.2 = 'g' ∨ p.2 = 'y')))
      ≤ gCount L gf + freeCount L tu
  | [], tu, _ => by simp [pass2, gCount]
  | (g, f) :: rest, tu, hm => by
    have hmrest : ∀ p ∈ rest, p.2 = 'g' ∨ p.2 = 'b' :=
      fun p hp => hm p (List.mem_cons_of_mem _ hp)
    by_cases hf : f = 'g'
    · subst hf
      have ih := pass2_markCount L rest tu hmrest
      have hshape : (((g, 'g') :: rest).map Prod.fst).zip (pass2 ((g, 'g') :: rest) tu)
          = (g, 'g') :: ((rest.map Prod.fst).zip (pass2 rest tu)) := by
        simp [pass2]
      rw [hshape, markP_cons, gCount_cons]
      by_cases hg : g = L
      · have e1 : (if g = L ∧ (('g' : Char) = 'g' ∨ ('g' : Char) = 'y') then 1 else 0)
            = 1 := by simp [hg]
        have e2 : (if g = L ∧ ('g' : Char) = 'g' then 1 else 0) = 1 := by simp [hg]
        rw [e1, e2]
        omega
      · have e1 : (if g = L ∧ (('g' : Char) = 'g' ∨ ('g' : Char) = 'y') then 1 else 0)
            = 0 := by simp [hg]
        have e2 : (if g = L ∧ ('g' : Char) = 'g' then 1 else 0) = 0 := by simp [hg]
        rw [e1, e2]
        omega
    · cases hmp : markPresent g tu with
      | none =>
        have hfb : f = 'b' := (hm (g, f) (List.mem_cons_self _ _)).resolve_left hf
        subst hfb
        have ih := pass2_markCount L rest tu hmrest
        have hshape : (((g, 'b') :: rest).map Prod.fst).zip (pass2 ((g, 'b') :: rest) tu)
            = (g, 'b') :: ((rest.map Prod.fst).zip (pass2 rest tu)) := by
          have : pass2 ((g, 'b') :: rest) tu = 'b' :: pass2 rest tu := by
            simp [pass2, hmp]
          simp [this]
        rw [hshape, markP_cons, gCount_cons]
        have hb : ¬(g = L ∧ ('b' = 'g' ∨ 'b' = 'y')) := by
          rintro ⟨-, hcon⟩
          rcases hcon with hcon | hcon <;> exact absurd hcon (by decide)
        have hbg : ¬(g = L ∧ 'b' = 'g') := by
          rintro ⟨-, hcon⟩
          exact absurd hcon (by decide)
        rw [if_neg hb, if_neg hbg]
        omega
      | some tu' =>
        have ih := pass2_markCount L rest tu' hmrest
        have hfree := markPresent_freeCount g tu tu' hmp L
        have hshape : (((g, f) :: rest).map Prod.fst).zip (pass2 ((g, f) :: rest) tu)
            = (g, 'y') :: ((rest.map Prod.fst).zip (pass2 rest tu')) := by
          have : pass2 ((g, f) :: rest) tu = 'y' :: pass2 rest tu' := by
            simp [pass2, hf, hmp]
          simp [this]
        rw [hshape, markP_cons, gCount_cons, hfree]
        have hfg : (if g = L ∧ f = 'g' then 1 else 0) = 0 := by simp [hf]
        rw [hfg]
        by_cases hg : g = L
        · have e1 : (if g = L ∧ (('y' : Char) = 'g' ∨ ('y' : Char) = 'y') then 1 else 0)
              = 1 := by simp [hg]
          have e3 : (if L = g then 1 else 0) = 1 := by simp [hg.symm]
          rw [e1, e3]
          omega
        · have e1 : (if g = L ∧ (('y' : Char) = 'g' ∨ ('y' : Char) = 'y') then 1 else 0)
              = 0 := by simp [hg]
          have e3 : (if L = g then 1 else 0) = 0 := by
            have hg' : ¬ L = g := fun h => hg h.symm
            simp [hg']
          rw [e1, e3]
          omega

lemma map_const_false_freeCount (L : Char) :
    ∀ t : List Char, freeCount L (t.map (fun c => (c, false))) = t.count L
  | [] => rfl
  | y :: ys => by
    have ih := map_const_false_freeCount L ys
    rw [List.map_cons, freeCount_cons, List.count_cons, ih]
    by_cases hy : y = L
    · have e1 : (if y = L ∧ (false : Bool) = false then 1 else 0) = 1 := by simp [hy]
      have e2 : (if (y == L) = true then 1 else 0) = 1 := by simp [hy]
      rw [e1, e2]
    · have e1 : (if y = L ∧ (false : Bool) = false then 1 else 0) = 0 := by simp [hy]
      have e2 : (if (y == L) = true then 1 else 0) = 0 := by simp [hy]
      rw [e1, e2]

lemma pass1_count (L : Char) : ∀ (g t : List Char),
    gCount L (pass1 g t).1 + freeCount L (pass1 g t).2 = t.count L
  | [], t => by
    have : (pass1 [] t).2 = t.map (fun c => (c, false)) := rfl
    rw [this, map_const_false_freeCount L t]
    simp [pass1, gCount]
  | _ :: _, [] => by simp [pass1, gCount, freeCount]
  | x :: xs, y :: ys => by
    have ih := pass1_count L xs ys
    by_cases hxy : x = y
    · subst hxy
      have h1 : (pass1 (x :: xs) (x :: ys)).1 = (x, 'g') :: (pass1 xs ys).1 := by
        show ((x, if x = x then 'g' else 'b') :: _) = _
        rw [if_pos rfl]
      have h2 : (pass1 (x :: xs) (x :: ys)).2 = (x, true) :: (pass1 xs ys).2 := by
        show ((x, decide (x = x)) :: _) = _
        simp
      rw [h1, h2, gCount_cons, freeCount_cons, List.count_cons]
      have hu : (if x = L ∧ (true : Bool) = false then 1 else 0) = 0 := by simp
      rw [hu]
      by_cases hx : x = L
      · have hg : (if x = L ∧ ('g' : Char) = 'g' then 1 else 0) = 1 := by simp [hx]
        have hcnt : (if (x == L) = true then 1 else 0) = 1 := by simp [hx]
        rw [hg, hcnt]
        omega
      · have hg : (if x = L ∧ ('g' : Char) = 'g' then 1 else 0) = 0 := by simp [hx]
        have hcnt : (if (x == L) = true then 1 else 0) = 0 := by simp [hx]
        rw [hg, hcnt]
        omega
    · have h1 : (pass1 (x :: xs) (y :: ys)).1 = (x, 'b') :: (pass1 xs ys).1 := by
        show ((x, if x = y then 'g' else 'b') :: _) = _
        rw [if_neg hxy]
      have h2 : (pass1 (x :: xs) (y :: ys)).2 = (y, false) :: (pass1 xs ys).2 := by
        show ((y, decide (x = y)) :: _) = _
        simp [hxy]
      rw [h1, h2, gCount_cons, freeCount_cons, List.count_cons]
      have hg : (if x = L ∧ ('b' : Char) = 'g' then 1 else 0) = 0 := by simp
      rw [hg]
      by_cases hy : y = L
      · have hu : (if y = L ∧ (false : Bool) = false then 1 else 0) = 1 := by simp [hy]
        have hcnt : (if (y == L) = true then 1 else 0) = 1 := by simp [hy]
        rw [hu, hcnt]
        omega
      · have hu : (if y = L ∧ (false : Bool) = false then 1 else 0) = 0 := by simp [hy]
        have hcnt : (if (y == L) = true then 1 else 0) = 0 := by simp [hy]
        rw [hu, hcnt]
        omega

/-! ### Claim theorems: feedback worked example, filtering, all-Correct -/

/-- C2: for equal-length words the feedback pattern exists (no
`IndexError`), has the guess's length, and for every letter `L` the
number of positions marked Correct or Present for `L` never exceeds the
number of occurrences of `L` in the target.  Determinism is inherent:
`feedback` is a pure function of its two arguments. -/
theorem feedback_contract (g t : List Char) (h : g.length = t.length) :
    ∃ fb, feedback g t = some fb ∧ fb.length = g.length
      ∧ ∀ L : Char, markCount L g fb ≤ t.count L := by
  have hle : g.length ≤ t.length := le_of_eq h
  refine ⟨pass2 (pass1 g t).1 (pass1 g t).2, feedback_eq_some g t hle, ?_, ?_⟩
  · rw [pass2_length, pass1_fst_length g t hle]
  · intro L
    have h2 := pass2_markCount L (pass1 g t).1 (pass1 g t).2 (pass1_marks g t)
    rw [pass1_fst_map g t hle] at h2
    calc markCount L g (pass2 (pass1 g t).1 (pass1 g t).2)
        ≤ gCount L (pass1 g t).1 + freeCount L (pass1 g t).2 := h2
      _ = t.count L := pass1_count L g t

/-- C2 witness. -/
theorem feedback_contract_w :
    ∃ fb, feedback "arise".data "raise".data = some fb
      ∧ fb.length = ("arise".data).length
      ∧ ∀ L : Char, markCount L "arise".data fb ≤ ("raise".data).count L :=
  feedback_contract "arise".data "raise".data (by decide)

/-- C6: the worked example — `compute_feedback("arise", "raise")` is
Present, Present, Correct, Correct, Correct, i.e. the string `"yyggg"`
in the source's encoding. -/
theorem feedback_arise_raise :
    feedback "arise".data "raise".data = some "yyggg".data := by decide

/-- C1: `filter_candidates` returns exactly the members of `candidates`
whose computed feedback against the guess equals the pattern (hence a
subset of `candidates`); consequently a target that is a member of
`candidates` remains after filtering on its own feedback pattern. -/
theorem filter_candidates_spec (candidates : List (List Char))
    (guess fb target p : List Char)
    (ht : target ∈ candidates) (hp : feedback guess target = some p) :
    (∀ w, w ∈ filter_candidates candidates guess fb ↔
      w ∈ candidates ∧ feedback guess w = some fb)
    ∧ target ∈ filter_candidates candidates guess p := by
  have hmem : ∀ (fb' : List Char) (w : List Char),
      w ∈ filter_candidates candidates guess fb' ↔
        w ∈ candidates ∧ feedback guess w = some fb' := by
    intro fb' w
    simp [filter_candidates]
  exact ⟨hmem fb, (hmem p target).mpr ⟨ht, hp⟩⟩

/-- C1 witness. -/
theorem filter_candidates_spec_w :
    "raise".data ∈ filter_candidates ["raise".data, "pouty".data]
      "arise".data "yyggg".data :=
  (filter_candidates_spec ["raise".data, "pouty".data] "arise".data
    [] "raise".data "yyggg".data (by decide) (by decide)).2

/-- C9: for equal-length words, the feedback pattern is all-Correct iff
the guess equals the target; hence the loop's Solved test
(`solver.py:131`) fires exactly when the played guess is the target. -/
theorem feedback_all_correct_iff (g t : List Char) (h : g.length = t.length) :
    feedback g t = some (List.replicate g.length 'g') ↔ g = t :=
  feedback_all_g_iff g t h

/-- C9 witness. -/
theorem feedback_all_correct_iff_w :
    (feedback "apple".data "apple".data
        = some (List.replicate ("apple".data).length 'g'))
    ∧ ¬ (feedback "angle".data "apple".data
        = some (List.replicate ("angle".data).length 'g')) :=
  ⟨(feedback_all_correct_iff "apple".data "apple".data (by decide)).mpr (by decide),
    fun hc => by
      have := (feedback_all_correct_iff "angle".data "apple".data (by decide)).mp hc
      simp at this⟩

/-! ### The pattern-count dictionary -/

lemma bump_sum (k : Option (List Char)) :
    ∀ m : List (Option (List Char) × Nat),
    ((bump k m).map Prod.snd).sum = (m.map Prod.snd).sum + 1
  | [] => by simp [bump]
  | (k', n) :: rest => by
    by_cases h : k' = k
    · simp [bump, h]
      omega
    · have ih := bump_sum k rest
      simp [bump, h, ih]
      omega

lemma bump_pos (k : Option (List Char)) :
    ∀ m : List (Option (List Char) × Nat), (∀ c ∈ m, 0 < c.2) →
    ∀ c ∈ bump k m, 0 < c.2
  | [], _ => by
    intro c hc
    simp [bump] at hc
    simp [hc]
  | (k', n) :: rest, hm => by
    intro c hc
    by_cases h : k' = k
    · rw [bump, if_pos h] at hc
      rcases List.mem_cons.mp hc with h1 | h2
      · rw [h1]
        have := hm (k', n) (List.mem_cons_self _ _)
        exact Nat.lt_succ_of_lt this
      · exact hm c (List.mem_cons_of_mem _ h2)
    · rw [bump, if_neg h] at hc
      rcases List.mem_cons.mp hc with h1 | h2
      · rw [h1]; exact hm (k', n) (List.mem_cons_self _ _)
      · exact bump_pos k rest
          (fun c hc => hm c (List.mem_cons_of_mem _ hc)) c h2

lemma bump_keys (k : Option (List Char)) :
    ∀ (m : List (Option (List Char) × Nat)) (x : Option (List Char)),
    x ∈ (bump k m).map Prod.fst ↔ x ∈ m.map Prod.fst ∨ x = k
  | [], x => by simp [bump]
  | (k', n) :: rest, x => by
    by_cases h : k' = k
    · subst h
      simp [bump]
      tauto
    · have ih := bump_keys k rest x
      simp [bump, h] at ih ⊢
      tauto

lemma foldBump_sum :
    ∀ (ks : List (Option (List Char))) (m : List (Option (List Char) × Nat)),
    (((ks.foldl (fun m k => bump k m) m)).map Prod.snd).sum
      = (m.map Prod.snd).sum + ks.length
  | [], m => by simp
  | k :: ks, m => by
    have ih := foldBump_sum ks (bump k m)
    simp only [List.foldl_cons, List.length_cons, ih, bump_sum k m]
    omega

lemma foldBump_pos :
    ∀ (ks : List (Option (List Char))) (m : List (Option (List Char) × Nat)),
    (∀ c ∈ m, 0 < c.2) → ∀ c ∈ ks.foldl (fun m k => bump k m) m, 0 < c.2
  | [], m, hm => hm
  | k :: ks, m, hm => by
    simp only [List.foldl_cons]
    exact foldBump_pos ks (bump k m) (bump_pos k m hm)

lemma foldBump_keys :
    ∀ (ks : List (Option (List Char))) (m : List (Option (List Char) × Nat))
      (x : Option (List Char)),
    x ∈ (ks.foldl (fun m k => bump k m) m).map Prod.fst
      ↔ x ∈ m.map Prod.fst ∨ x ∈ ks
  | [], m, x => by simp
  | k :: ks, m, x => by
    have ih := foldBump_keys ks (bump k m) x
    simp only [List.foldl_cons, List.mem_cons] at ih ⊢
    rw [ih, bump_keys k m x]
    tauto

lemma foldBump_replicate (k : Option (List Char)) :
    ∀ (n j : Nat),
    (List.replicate n k).foldl (fun m k => bump k m) [(k, j)] = [(k, j + n)]
  | 0, j => by simp
  | n + 1, j => by
    have ih := foldBump_replicate k n (j + 1)
    have hb : bump k [(k, j)] = [(k, j + 1)] := by simp [bump]
    simp only [List.replicate_succ, List.foldl_cons, hb, ih]
    have harith : j + 1 + n = j + (n + 1) := by omega
    rw [harith]

lemma pattern_counts_eq_foldl (g : List Char) (cands : List (List Char)) :
    pattern_counts g cands
      = (cands.map (feedback g)).foldl (fun m k => bump k m) [] := by
  rw [pattern_counts, List.foldl_map]

lemma pattern_counts_sum (g : List Char) (cands : List (List Char)) :
    ((pattern_counts g cands).map Prod.snd).sum = cands.length := by
  rw [pattern_counts_eq_foldl, foldBump_sum]
  simp

lemma pattern_counts_pos (g : List Char) (cands : List (List Char)) :
    ∀ c ∈ pattern_counts g cands, 0 < c.2 := by
  rw [pattern_counts_eq_foldl]
  exact foldBump_pos _ [] (by simp)

lemma pattern_counts_keys (g : List Char) (cands : List (List Char)) :
    ∀ w ∈ cands, feedback g w ∈ (pattern_counts g cands).map Prod.fst := by
  intro w hw
  rw [pattern_counts_eq_foldl, foldBump_keys]
  exact Or.inr (List.mem_map_of_mem _ hw)

lemma pattern_counts_const (g : List Char) (cands : List (List Char))
    (p : Option (List Char)) (hne : cands ≠ [])
    (hall : ∀ w ∈ cands, feedback g w = p) :
    pattern_counts g cands = [(p, cands.length)] := by
  have hmap : cands.map (feedback g) = List.replicate cands.length p := by
    rw [List.eq_replicate_iff]
    constructor
    · simp
    · intro b hb
      rcases List.mem_map.mp hb with ⟨w, hw, hwb⟩
      rw [← hwb]
      exact hall w hw
  rw [pattern_counts_eq_foldl, hmap]
  obtain ⟨n, hn⟩ : ∃ n, cands.length = n + 1 :=
    ⟨cands.length - 1, by
      have : 0 < cands.length := List.length_pos.mpr hne
      omega⟩
  rw [hn, List.replicate_succ, List.foldl_cons]
  have hb : bump p ([] : List (Option (List Char) × Nat)) = [(p, 1)] := rfl
  rw [hb, foldBump_replicate]
  have harith : 1 + n = n + 1 := Nat.add_comm 1 n
  rw [harith]

/-! ### Entropy facts -/

lemma snd_le_sum :
    ∀ (m : List (Option (List Char) × Nat)) (c : Option (List Char) × Nat),
    c ∈ m → c.2 ≤ (m.map Prod.snd).sum
  | [], c => by simp
  | e :: rest, c => by
    intro hc
    rcases List.mem_cons.mp hc with h1 | h2
    · subst h1
      simp only [List.map_cons, List.sum_cons]
      omega
    · have := snd_le_sum rest c h2
      simp only [List.map_cons, List.sum_cons]
      omega

lemma sum_eq_zero_mem :
    ∀ l : List ℝ, (∀ x ∈ l, 0 ≤ x) → l.sum = 0 → ∀ x ∈ l, x = 0
  | [], _, _ => by simp
  | a :: rest, hnn, hsum => by
    have ha : 0 ≤ a := hnn a (List.mem_cons_self _ _)
    have hrest_nn : ∀ x ∈ rest, 0 ≤ x :=
      fun x hx => hnn x (List.mem_cons_of_mem _ hx)
    have hrest : 0 ≤ rest.sum := List.sum_nonneg hrest_nn
    rw [List.sum_cons] at hsum
    have ha0 : a = 0 := by linarith
    have hr0 : rest.sum = 0 := by linarith
    intro x hx
    rcases List.mem_cons.mp hx with h1 | h2
    · rw [h1, ha0]
    · exact sum_eq_zero_mem rest hrest_nn hr0 x h2

lemma entropy_term_nonneg (n T : Nat) (h1 : 1 ≤ n) (h2 : n ≤ T) :
    0 ≤ -(((n : ℝ) / (T : ℝ)) * Real.logb 2 ((n : ℝ) / (T : ℝ))) := by
  have hT : (0 : ℝ) < (T : ℝ) := by
    have : 0 < T := lt_of_lt_of_le h1 h2
    exact_mod_cast this
  have hp0 : (0 : ℝ) < (n : ℝ) / (T : ℝ) := by
    apply div_pos
    · exact_mod_cast h1
    · exact hT
  have hp1 : (n : ℝ) / (T : ℝ) ≤ 1 := by
    rw [div_le_one hT]
    exact_mod_cast h2
  have hlog : Real.logb 2 ((n : ℝ) / (T : ℝ)) ≤ 0 :=
    Real.logb_nonpos (by norm_num) (le_of_lt hp0) hp1
  have : ((n : ℝ) / (T : ℝ)) * Real.logb 2 ((n : ℝ) / (T : ℝ)) ≤ 0 :=
    mul_nonpos_of_nonneg_of_nonpos (le_of_lt hp0) hlog
  linarith

lemma entropy_term_eq_zero (n T : Nat) (h1 : 1 ≤ n) (h2 : n ≤ T)
    (hz : -(((n : ℝ) / (T : ℝ)) * Real.logb 2 ((n : ℝ) / (T : ℝ))) = 0) :
    n = T := by
  have hT : (0 : ℝ) < (T : ℝ) := by
    have : 0 < T := lt_of_lt_of_le h1 h2
    exact_mod_cast this
  have hp0 : (0 : ℝ) < (n : ℝ) / (T : ℝ) := by
    apply div_pos
    · exact_mod_cast h1
    · exact hT
  have hmul : ((n : ℝ) / (T : ℝ)) * Real.logb 2 ((n : ℝ) / (T : ℝ)) = 0 := by
    linarith
  rcases mul_eq_zero.mp hmul with hc | hc
  · exact absurd hc (ne_of_gt hp0)
  · have hone : (n : ℝ) / (T : ℝ) = 1 :=
      Real.eq_one_of_pos_of_logb_eq_zero (by norm_num) hp0 hc
    have : (n : ℝ) = (T : ℝ) := (div_eq_one_iff_eq (ne_of_gt hT)).mp hone
    exact_mod_cast this

lemma calculate_entropy_def (g : List Char) (cands : List (List Char)) :
    calculate_entropy g cands
      = ((pattern_counts g cands).map
          (fun kc => -(((kc.2 : ℝ) / (cands.length : ℝ))
            * Real.logb 2 ((kc.2 : ℝ) / (cands.length : ℝ))))).sum := rfl

/-- C5: over a non-empty candidate list, the entropy of any guess is
nonnegative, and it is zero exactly when every candidate yields the same
feedback pattern against the guess. -/
theorem calculate_entropy_nonneg_zero_iff (g : List Char)
    (cands : List (List Char)) (h : cands ≠ []) :
    0 ≤ calculate_entropy g cands
    ∧ (calculate_entropy g cands = 0
        ↔ ∀ a ∈ cands, ∀ b ∈ cands, feedback g a = feedback g b) := by
  have hTpos : 0 < cands.length := List.length_pos.mpr h
  have hsum := pattern_counts_sum g cands
  have hpos := pattern_counts_pos g cands
  have hle : ∀ c ∈ pattern_counts g cands, c.2 ≤ cands.length := by
    intro c hc
    calc c.2 ≤ ((pattern_counts g cands).map Prod.snd).sum := snd_le_sum _ c hc
      _ = cands.length := hsum
  have hnn : ∀ x ∈ (pattern_counts g cands).map
      (fun kc => -(((kc.2 : ℝ) / (cands.length : ℝ))
        * Real.logb 2 ((kc.2 : ℝ) / (cands.length : ℝ)))), 0 ≤ x := by
    intro x hx
    rcases List.mem_map.mp hx with ⟨c, hc, hcx⟩
    rw [← hcx]
    exact entropy_term_nonneg c.2 cands.length (hpos c hc) (hle c hc)
  refine ⟨by rw [calculate_entropy_def]; exact List.sum_nonneg hnn, ?_, ?_⟩
  · intro hzero
    rw [calculate_entropy_def] at hzero
    have hall0 := sum_eq_zero_mem _ hnn hzero
    have hcT : ∀ c ∈ pattern_counts g cands, c.2 = cands.length := by
      intro c hc
      exact entropy_term_eq_zero c.2 cands.length (hpos c hc) (hle c hc)
        (hall0 _ (List.mem_map_of_mem _ hc))
    cases hpc : pattern_counts g cands with
    | nil =>
      rw [hpc] at hsum
      simp at hsum
      omega
    | cons e rest =>
      have hrest : rest = [] := by
        cases hrest' : rest with
        | nil => rfl
        | cons c rest2 =>
          have he : e.2 = cands.length :=
            hcT e (by rw [hpc]; exact List.mem_cons_self _ _)
          have hc : c.2 = cands.length :=
            hcT c (by
              rw [hpc, hrest']
              exact List.mem_cons_of_mem _ (List.mem_cons_self _ _))
          have hsum' := hsum
          rw [hpc, hrest'] at hsum'
          simp only [List.map_cons, List.sum_cons] at hsum'
          omega
      subst hrest
      intro a ha b hb
      have hka := pattern_counts_keys g cands a ha
      have hkb := pattern_counts_keys g cands b hb
      rw [hpc] at hka hkb
      simp only [List.map_cons, List.map_nil, List.mem_singleton] at hka hkb
      rw [hka, hkb]
  · intro hsame
    obtain ⟨c0, hc0⟩ : ∃ x, x ∈ cands := List.exists_mem_of_ne_nil cands h
    have hall : ∀ w ∈ cands, feedback g w = feedback g c0 :=
      fun w hw => hsame w hw c0 hc0
    have hpc := pattern_counts_const g cands (feedback g c0) h hall
    rw [calculate_entropy_def, hpc]
    simp only [List.map_cons, List.map_nil, List.sum_cons, List.sum_nil]
    have hTne : ((cands.length : ℝ)) ≠ 0 := by
      exact_mod_cast Nat.pos_iff_ne_zero.mp hTpos
    rw [div_self hTne]
    simp

/-- C5 witness. -/
theorem calculate_entropy_nonneg_zero_iff_w :
    0 ≤ calculate_entropy "aa".data ["ab".data, "ba".data]
    ∧ (calculate_entropy "aa".data ["ab".data, "ba".data] = 0
        ↔ ∀ a ∈ ["ab".data, "ba".data], ∀ b ∈ ["ab".data, "ba".data],
            feedback "aa".data a = feedback "aa".data b) :=
  calculate_entropy_nonneg_zero_iff "aa".data ["ab".data, "ba".data] (by decide)

/-! ### Ranking: sortedness, permutation, stability -/

lemma rank_le_trans :
    ∀ a b c : List Char × ℝ,
      (fun a b : List Char × ℝ => decide (b.2 ≤ a.2)) a b →
      (fun a b : List Char × ℝ => decide (b.2 ≤ a.2)) b c →
      (fun a b : List Char × ℝ => decide (b.2 ≤ a.2)) a c := by
  intro a b c hab hbc
  simp only [decide_eq_true_eq] at hab hbc ⊢
  exact le_trans hbc hab

lemma rank_le_total :
    ∀ a b : List Char × ℝ,
      ((fun a b : List Char × ℝ => decide (b.2 ≤ a.2)) a b
        || (fun a b : List Char × ℝ => decide (b.2 ≤ a.2)) b a) = true := by
  intro a b
  by_cases h : b.2 ≤ a.2
  · simp [h]
  · simp [le_of_not_le h]

/-- C4: `rank_guesses` pairs every pool word with its entropy, sorts
descending by entropy with a stable sort (ties keep the pool's original
enumeration order), and returns the first `topn` entries.  Determinism
is inherent: the definition is a pure function of its inputs, so
identical inputs give the identical ordered output.  The stability
conjunct states that for each entropy value `e`, the sorted list
restricted to entries of entropy `e` is exactly the pool-order list of
those entries. -/
theorem rank_guesses_spec (candidates pool : List (List Char)) (topn : Nat) :
    rank_guesses candidates pool topn
        = ((pool.map (fun w => (w, calculate_entropy w candidates))).mergeSort
            (fun a b => decide (b.2 ≤ a.2))).take topn
    ∧ ((pool.map (fun w => (w, calculate_entropy w candidates))).mergeSort
        (fun a b => decide (b.2 ≤ a.2))).Pairwise (fun a b => b.2 ≤ a.2)
    ∧ ((pool.map (fun w => (w, calculate_entropy w candidates))).mergeSort
          (fun a b => decide (b.2 ≤ a.2))).Perm
        (pool.map (fun w => (w, calculate_entropy w candidates)))
    ∧ ∀ e : ℝ,
      ((pool.map (fun w => (w, calculate_entropy w candidates))).mergeSort
          (fun a b => decide (b.2 ≤ a.2))).filter (fun x => decide (x.2 = e))
        = (pool.map (fun w => (w, calculate_entropy w candidates))).filter
            (fun x => decide (x.2 = e)) := by
  refine ⟨rfl, ?_, List.mergeSort_perm _ _, ?_⟩
  · exact (List.sorted_mergeSort rank_le_trans rank_le_total _).imp
      (fun h => by simpa using h)
  · intro e
    set all := pool.map (fun w => (w, calculate_entropy w candidates)) with hall
    set p : List Char × ℝ → Bool := fun x => decide (x.2 = e) with hp
    have hmemA : ∀ a ∈ all.filter p, a.2 = e := by
      intro a ha
      have := List.of_mem_filter ha
      simpa [hp] using this
    have hApw : (all.filter p).Pairwise
        (fun a b : List Char × ℝ => decide (b.2 ≤ a.2) = true) := by
      apply List.pairwise_of_forall_mem_list
      intro a ha b hb
      simp only [decide_eq_true_eq]
      rw [hmemA a ha, hmemA b hb]
    have h1 : List.Sublist (all.filter p)
        (all.mergeSort (fun a b => decide (b.2 ≤ a.2))) :=
      List.sublist_mergeSort rank_le_trans rank_le_total hApw
        (List.filter_sublist all)
    have h2 : (all.filter p).filter p = all.filter p := by
      apply List.filter_eq_self.mpr
      intro a ha
      exact List.of_mem_filter ha
    have h3 : List.Sublist (all.filter p)
        ((all.mergeSort (fun a b => decide (b.2 ≤ a.2))).filter p) := by
      have := h1.filter p
      rwa [h2] at this
    have h4 : List.Perm
        ((all.mergeSort (fun a b => decide (b.2 ≤ a.2))).filter p)
        (all.filter p) := (List.mergeSort_perm all _).filter p
    exact (h3.eq_of_length h4.length_eq.symm).symm

/-- C10: on the empty candidate list the `pattern_counts` dict is empty,
so the loop over dict values — the only place a division by the
candidate count occurs — runs zero times and the entropy is `0` for
every guess. -/
theorem calculate_entropy_nil (g : List Char) :
    pattern_counts g [] = [] ∧ calculate_entropy g [] = 0 :=
  ⟨rfl, rfl⟩

/-! ### The solving loop -/

lemma mem_filter_candidates (cands : List (List Char)) (guess fb w : List Char) :
    w ∈ filter_candidates cands guess fb
      ↔ w ∈ cands ∧ feedback guess w = some fb := by
  simp [filter_candidates]

lemma filter_candidates_length_lt (cands : List (List Char)) (guess fb : List Char)
    (hg : guess ∈ cands) (hne : feedback guess guess ≠ some fb) :
    (filter_candidates cands guess fb).length < cands.length := by
  rw [filter_candidates, List.length_filter_lt_length_iff_exists]
  exact ⟨guess, hg, by simp [hne]⟩

lemma rank_guesses_head (cands pool : List (List Char)) (h : pool ≠ []) :
    ∃ g e, rank_guesses cands pool 1 = [(g, e)] ∧ g ∈ pool := by
  have hne : pool.map (fun w => (w, calculate_entropy w cands)) ≠ [] := by
    intro hcon
    exact h (by simpa using hcon)
  have hsne : (pool.map (fun w => (w, calculate_entropy w cands))).mergeSort
      (fun a b => decide (b.2 ≤ a.2)) ≠ [] := by
    intro hcon
    apply hne
    have hperm := List.mergeSort_perm
      (pool.map (fun w => (w, calculate_entropy w cands)))
      (fun a b => decide (b.2 ≤ a.2))
    rw [hcon] at hperm
    exact hperm.symm.eq_nil
  obtain ⟨x, rest, hx⟩ := List.exists_cons_of_ne_nil hsne
  refine ⟨x.1, x.2, ?_, ?_⟩
  · have hdef : rank_guesses cands pool 1
        = ((pool.map (fun w => (w, calculate_entropy w cands))).mergeSort
            (fun a b => decide (b.2 ≤ a.2))).take 1 := rfl
    rw [hdef, hx]
    simp
  · have hx_mem : x ∈ (pool.map (fun w => (w, calculate_entropy w cands))).mergeSort
        (fun a b => decide (b.2 ≤ a.2)) := by
      rw [hx]
      exact List.mem_cons_self _ _
    have hx_all : x ∈ pool.map (fun w => (w, calculate_entropy w cands)) :=
      List.mem_mergeSort.mp hx_mem
    rcases List.mem_map.mp hx_all with ⟨w, hw, hwx⟩
    have hxw : x.1 = w := by rw [← hwx]
    rw [hxw]
    exact hw

lemma play_loop_solved (L : Nat) (target : List Char) (htL : target.length = L) :
    ∀ (fuel : Nat) (cands : List (List Char)) (turns : Nat),
    target ∈ cands → (∀ w ∈ cands, w.length = L) → cands.length ≤ fuel →
    ∃ n, 1 ≤ n ∧ n ≤ cands.length
      ∧ play_loop L target cands turns fuel = Outcome.Solved (turns + n)
  | 0, cands, turns, hmem, _, hfuel => by
    have hpos : 0 < cands.length := List.length_pos.mpr (List.ne_nil_of_mem hmem)
    omega
  | fuel + 1, cands, turns, hmem, hlen, hfuel => by
    have hne : cands ≠ [] := List.ne_nil_of_mem hmem
    obtain ⟨g, e, hrank, hgmem⟩ := rank_guesses_head cands cands hne
    have hglen : g.length = L := hlen g hgmem
    have hgle : g.length ≤ target.length := by rw [hglen, htL]
    obtain ⟨fb, hfb, hfblen⟩ := feedback_isSome g target hgle
    by_cases hsolved : fb = List.replicate L 'g'
    · refine ⟨1, le_refl 1, List.length_pos.mpr hne, ?_⟩
      simp only [play_loop, hrank, hfb]
      rw [if_pos hsolved]
    · have hgg : feedback g g = some (List.replicate L 'g') := by
        rw [feedback_self g, hglen]
      have hgne : feedback g g ≠ some fb := by
        rw [hgg]
        intro hcon
        exact hsolved (Option.some_inj.mp hcon).symm
      have hlt := filter_candidates_length_lt cands g fb hgmem hgne
      have hmem' : target ∈ filter_candidates cands g fb :=
        (mem_filter_candidates cands g fb target).mpr ⟨hmem, hfb⟩
      have hne' : filter_candidates cands g fb ≠ [] := List.ne_nil_of_mem hmem'
      have hlen' : ∀ w ∈ filter_candidates cands g fb, w.length = L :=
        fun w hw => hlen w ((mem_filter_candidates cands g fb w).mp hw).1
      have hfuel' : (filter_candidates cands g fb).length ≤ fuel := by omega
      obtain ⟨n, hn1, hn2, hplay⟩ := play_loop_solved L target htL fuel
        (filter_candidates cands g fb) (turns + 1) hmem' hlen' hfuel'
      refine ⟨n + 1, by omega, by omega, ?_⟩
      simp only [play_loop, hrank, hfb]
      rw [if_neg hsolved, if_neg hne', hplay]
      have harith : turns + 1 + n = turns + (n + 1) := by omega
      rw [harith]

lemma play_loop_ne_exhausted (L : Nat) (target : List Char)
    (htL : target.length = L) :
    ∀ (fuel : Nat) (cands : List (List Char)) (turns : Nat),
    target ∈ cands → (∀ w ∈ cands, w.length = L) →
    play_loop L target cands turns fuel ≠ Outcome.Exhausted
  | 0, cands, turns, hmem, hlen => by
    simp [play_loop]
  | fuel + 1, cands, turns, hmem, hlen => by
    have hne : cands ≠ [] := List.ne_nil_of_mem hmem
    obtain ⟨g, e, hrank, hgmem⟩ := rank_guesses_head cands cands hne
    have hglen : g.length = L := hlen g hgmem
    have hgle : g.length ≤ target.length := by rw [hglen, htL]
    obtain ⟨fb, hfb, hfblen⟩ := feedback_isSome g target hgle
    by_cases hsolved : fb = List.replicate L 'g'
    · simp only [play_loop, hrank, hfb]
      rw [if_pos hsolved]
      simp
    · have hmem' : target ∈ filter_candidates cands g fb :=
        (mem_filter_candidates cands g fb target).mpr ⟨hmem, hfb⟩
      have hne' : filter_candidates cands g fb ≠ [] := List.ne_nil_of_mem hmem'
      have hlen' : ∀ w ∈ filter_candidates cands g fb, w.length = L :=
        fun w hw => hlen w ((mem_filter_candidates cands g fb w).mp hw).1
      simp only [play_loop, hrank, hfb]
      rw [if_neg hsolved, if_neg hne']
      exact play_loop_ne_exhausted L target htL fuel
        (filter_candidates cands g fb) (turns + 1) hmem' hlen'

lemma play_wordle_valid (choice : List (List Char) → List Char)
    (vocab : List (List Char)) (L : Nat) (t : List Char)
    (hL : ¬(L < MIN_LEN ∨ MAX_LEN < L)) (ht : t ≠ [])
    (hlen : t.length = L) (hmem : t ∈ vocab) (fuel : Nat) :
    play_wordle choice vocab L (some t) fuel = play_loop L t vocab 0 fuel := by
  have hcond : ¬(t ≠ [] ∧ (t.length ≠ L ∨ t ∉ vocab)) := by
    rintro ⟨-, h2 | h3⟩
    · exact h2 hlen
    · exact h3 hmem
  simp only [play_wordle, Option.getD_some]
  rw [if_neg hL, if_neg hcond, if_pos ht]

lemma play_invalid_target_aux (choice : List (List Char) → List Char)
    (vocab : List (List Char)) (L : Nat) (t : List Char)
    (hL : ¬(L < MIN_LEN ∨ MAX_LEN < L)) (ht : t ≠ [])
    (hbad : t.length ≠ L ∨ t ∉ vocab) (fuel : Nat) :
    play_wordle choice vocab L (some t) fuel = Outcome.InvalidTarget := by
  simp only [play_wordle, Option.getD_some]
  rw [if_neg hL, if_pos ⟨ht, hbad⟩]

/-- C3: with word length 5 and a target present in the (length-5)
vocabulary, the solving loop reaches `Solved` within a number of turns
no greater than the initial candidate count (any fuel of at least the
candidate count suffices for the embedded loop), and no run — under any
fuel and any `random.choice` oracle — ends in `Exhausted`. -/
theorem play_wordle_solves (choice : List (List Char) → List Char)
    (vocab : List (List Char)) (target : List Char)
    (hwords : ∀ w ∈ vocab, w.length = 5) (htgt : target ∈ vocab) :
    (∀ fuel, vocab.length ≤ fuel →
      ∃ n, 1 ≤ n ∧ n ≤ vocab.length
        ∧ play_wordle choice vocab 5 (some target) fuel = Outcome.Solved n)
    ∧ ∀ fuel, play_wordle choice vocab 5 (some target) fuel
        ≠ Outcome.Exhausted := by
  have htL : target.length = 5 := hwords target htgt
  have htne : target ≠ [] := by
    intro hcon
    rw [hcon] at htL
    simp at htL
  have hunfold : ∀ fuel, play_wordle choice vocab 5 (some target) fuel
      = play_loop 5 target vocab 0 fuel := fun fuel =>
    play_wordle_valid choice vocab 5 target (by decide) htne htL htgt fuel
  constructor
  · intro fuel hfuel
    obtain ⟨n, h1, h2, h3⟩ := play_loop_solved 5 target htL fuel vocab 0
      htgt hwords hfuel
    rw [Nat.zero_add] at h3
    exact ⟨n, h1, h2, by rw [hunfold fuel, h3]⟩
  · intro fuel
    rw [hunfold fuel]
    exact play_loop_ne_exhausted 5 target htL fuel vocab 0 htgt hwords

/-- C3 witness. -/
theorem play_wordle_solves_w :
    ∃ n, 1 ≤ n ∧ n ≤ (["apple".data] : List (List Char)).length
      ∧ play_wordle (fun _ => []) ["apple".data] 5 (some "apple".data) 1
          = Outcome.Solved n :=
  (play_wordle_solves (fun _ => []) ["apple".data] "apple".data
    (by decide) (by decide)).1 1 (by decide)

/-- C8: in auto mode, an explicitly supplied (non-empty) target of the
wrong length or absent from the vocabulary fails as `InvalidTarget` for
every fuel — including fuel 0, i.e. before a single loop turn — and this
failure result is distinct from every `Solved` outcome. -/
theorem play_wordle_invalid_target (choice : List (List Char) → List Char)
    (vocab : List (List Char)) (L : Nat) (target : List Char)
    (hL : ¬(L < MIN_LEN ∨ MAX_LEN < L)) (ht : target ≠ [])
    (hbad : target.length ≠ L ∨ target ∉ vocab) :
    (∀ fuel, play_wordle choice vocab L (some target) fuel
        = Outcome.InvalidTarget)
    ∧ ∀ fuel n, play_wordle choice vocab L (some target) fuel
        ≠ Outcome.Solved n := by
  refine ⟨fun fuel => play_invalid_target_aux choice vocab L target hL ht hbad fuel, ?_⟩
  intro fuel n
  rw [play_invalid_target_aux choice vocab L target hL ht hbad fuel]
  simp

/-- C8 witness: `--length 5 --target zzzzz` against a vocabulary not
containing `"zzzzz"`. -/
theorem play_wordle_invalid_target_w :
    play_wordle (fun _ => []) ["apple".data] 5 (some "zzzzz".data) 0
        = Outcome.InvalidTarget :=
  (play_wordle_invalid_target (fun _ => []) ["apple".data] 5 "zzzzz".data
    (by decide) (by decide) (Or.inr (by decide))).1 0

/-- C7 counterexample: in auto mode (`play_wordle`) with a valid length
and an empty vocabulary, the session does not fail with
`EmptyVocabulary` — there is no emptiness check on that path; it fails
with `InvalidTarget` instead. -/
theorem play_empty_vocab_not_empty_vocabulary :
    play_wordle (fun _ => []) [] 5 (some "apple".data) 0
        = Outcome.InvalidTarget
    ∧ Outcome.InvalidTarget ≠ Outcome.EmptyVocabulary :=
  ⟨play_invalid_target_aux (fun _ => []) [] 5 "apple".data
    (by decide) (by decide) (Or.inr (List.not_mem_nil _)) 0, by decide⟩

/-- C7 (amended): auto mode (`play_wordle`) rejects a length outside
`[3, 15]` with `InvalidLength` before anything else, but performs no
vocabulary-emptiness check: with an empty vocabulary and a supplied
target it fails as `InvalidTarget`.  The `EmptyVocabulary` failure
belongs to interactive mode (`interactive_manual_mode`), which fails
exactly when the vocabulary entry for the requested length is missing or
empty — performing no separate length-range check — and otherwise
establishes the candidate set as a copy of the full vocabulary. -/
theorem init_validation_amended :
    (∀ (choice : List (List Char) → List Char) (vocab : List (List Char))
        (tgt : Option (List Char)) (fuel L : Nat),
      (L < MIN_LEN ∨ MAX_LEN < L) →
      play_wordle choice vocab L tgt fuel = Outcome.InvalidLength)
    ∧ (∀ (choice : List (List Char) → List Char) (target : List Char)
        (fuel : Nat),
      target ≠ [] →
      play_wordle choice [] 5 (some target) fuel = Outcome.InvalidTarget)
    ∧ (∀ (vb : Nat → Option (List (List Char))) (L : Nat),
      interactive_init vb L = none ↔ (vb L = none ∨ vb L = some []))
    ∧ (∀ (vb : Nat → Option (List (List Char))) (L : Nat)
        (v : List (List Char)),
      vb L = some v → v ≠ [] → interactive_init vb L = some v) := by
  refine ⟨?_, ?_, ?_, ?_⟩
  · intro choice vocab tgt fuel L hL
    simp only [play_wordle]
    rw [if_pos hL]
  · intro choice target fuel ht
    exact play_invalid_target_aux choice [] 5 target (by decide) ht
      (Or.inr (List.not_mem_nil _)) fuel
  · intro vb L
    rw [interactive_init]
    cases hv : vb L with
    | none => simp
    | some v =>
      by_cases hemp : v = []
      · simp [hemp]
      · simp [hemp]
  · intro vb L v hv hne
    rw [interactive_init, hv]
    simp only []
    rw [if_neg hne]

/-- C7 amended-claim witness. -/
theorem init_validation_amended_w :
    play_wordle (fun _ => []) [] 2 none 0 = Outcome.InvalidLength
    ∧ play_wordle (fun _ => []) [] 5 (some "apple".data) 0
        = Outcome.InvalidTarget
    ∧ interactive_init (fun _ => none) 5 = none
    ∧ interactive_init (fun _ => some [['a', 'b', 'c']]) 3
        = some [['a', 'b', 'c']] :=
  ⟨init_validation_amended.1 (fun _ => []) [] none 0 2 (by decide),
    init_validation_amended.2.1 (fun _ => []) "apple".data 0 (by decide),
    (init_validation_amended.2.2.1 (fun _ => none) 5).mpr (Or.inl rfl),
    init_validation_amended.2.2.2 (fun _ => some [['a', 'b', 'c']]) 3
      [['a', 'b', 'c']] rfl (by decide)⟩

end Wordle
